import Mathlib

/-!
Shallow embedding of the EDA initial-placement program
(src/task4/Program/initial_placement_fixed.py, with the task2 variant
src/Version_Python/task2/program/bookshelf_parser.py where cited).

Python dictionaries are modelled as insertion-ordered association lists
(assignment to an existing key replaces the value in place; assignment
to a new key appends).  The dictionaries `nodes`, `movable_nodes` and
`fixed_nodes` of the source alias the same node objects per name, so the
model keeps a single store keyed by name plus the two key lists.
Floating-point coordinates are modelled as rationals; the claims settled
here depend only on field arithmetic and order, not on rounding.
-/

namespace EDA

/-- Insertion-ordered association-list lookup (Python `dict[k]` / `get`). -/
def lookupA {α : Type} (s : List (String × α)) (k : String) : Option α :=
  (s.find? (fun p => p.1 == k)).map Prod.snd

/-- Python `k in dict`. -/
def hasKeyA {α : Type} (s : List (String × α)) (k : String) : Bool :=
  (s.find? (fun p => p.1 == k)).isSome

/-- Python `dict[k] = v`: replace in place when the key exists, else append. -/
def setA {α : Type} (s : List (String × α)) (k : String) (v : α) : List (String × α) :=
  if hasKeyA s k then s.map (fun p => if p.1 == k then (k, v) else p) else s ++ [(k, v)]

/-- Key list of a dict used as a set: append the key if new (Python
`dict[k] = v` restricted to its effect on the ordered key set). -/
def addKey (ks : List String) (k : String) : List String :=
  if k ∈ ks then ks else ks ++ [k]

/-- One node record of `initial_placement_fixed.py` (the per-node dict built
in `parse_nodes`; the source leaves the orientation key absent until
`parse_pl` assigns it, and no code reads it before that, so it is
initialised arbitrarily to "N" here). -/
structure PNode where
  name : String
  width : Int
  height : Int
  x : ℚ
  y : ℚ
  orient : String
  is_fixed : Bool
  area : Int
deriving Repr, DecidableEq

/-- One net record (`parse_nets`): pins are (node name, pin type). -/
structure PNet where
  name : String
  pins : List (String × String)
  degree : Nat
deriving Repr, DecidableEq

/-- The parser state used by the claims: the `nodes` store plus the ordered
key lists of `movable_nodes` and `fixed_nodes`, and the parsed nets. -/
structure Design where
  nodes : List (String × PNode)
  movableKeys : List String
  fixedKeys : List String
  nets : List PNet
deriving Repr, DecidableEq

def emptyDesign : Design :=
  { nodes := [], movableKeys := [], fixedKeys := [], nets := [] }

/-- The node dict created for one `.nodes` declaration line in
`parse_nodes` (task4): zero coordinates, movable by default. -/
def freshNode (nm : String) (w h : Int) : PNode :=
  { name := nm, width := w, height := h, x := 0, y := 0,
    orient := "N", is_fixed := false, area := w * h }

/-- One iteration of the node loop of `parse_nodes`
(initial_placement_fixed.py:144-179): a declaration is classified fixed
iff `len(self.nodes) >= num_modules - num_terminals` at insertion time. -/
def nodesStep (numModules numTerminals : Nat) (st : Design)
    (d : String × Int × Int) : Design :=
  let base := freshNode d.1 d.2.1 d.2.2
  if st.nodes.length ≥ numModules - numTerminals then
    { st with nodes := setA st.nodes d.1 { base with is_fixed := true },
              fixedKeys := addKey st.fixedKeys d.1 }
  else
    { st with nodes := setA st.nodes d.1 base,
              movableKeys := addKey st.movableKeys d.1 }

/-- `parse_nodes` of task4 over the list of declaration lines
(name, width, height), headers already consumed. -/
def parseNodes (numModules numTerminals : Nat)
    (decls : List (String × Int × Int)) : Design :=
  decls.foldl (nodesStep numModules numTerminals) emptyDesign

/-- Node record of the task2 parser (`bookshelf_parser.py`). -/
structure T2Node where
  width : Int
  height : Int
  is_terminal : Bool
deriving Repr, DecidableEq

/-- The terminal-marking loop of `parse_nodes_file`
(bookshelf_parser.py:92-99): walk the dict in insertion order, mark
`is_terminal` while the counter is below `NumTerminals`, then break. -/
def markTerminals : List (String × T2Node) → Nat → List (String × T2Node)
  | l, 0 => l
  | [], _ + 1 => []
  | p :: rest, t + 1 => (p.1, { p.2 with is_terminal := true }) :: markTerminals rest t

/-- `parse_nodes_file` of the task2 parser: insert every declaration with
`is_terminal = False`, then mark the FIRST `NumTerminals` entries. -/
def parseNodesT2 (numTerminals : Nat)
    (decls : List (String × Int × Int)) : List (String × T2Node) :=
  let info := decls.foldl
    (fun acc d => setA acc d.1 { width := d.2.1, height := d.2.2, is_terminal := false }) []
  markTerminals info numTerminals

/-! ## parse_nets (initial_placement_fixed.py:188-272) -/

/-- One non-skipped line of the `.nets` file: either a `NetDegree` header
(declared degree, optional net name) or a pin line (node name, pin type). -/
inductive NetLine where
  | header (d : Nat) (nm : Option String)
  | pin (node : String) (ptype : String)
deriving Repr, DecidableEq

/-- The loop state of `parse_nets`: saved nets, the current net name, and
the pins collected so far for the current net. -/
structure NetsAcc where
  saved : List PNet
  current : Option String
  curPins : List (String × String)
deriving Repr, DecidableEq

/-- The save step of `parse_nets`: a pending net is appended only when a
current name exists and at least one pin was kept
(`if current_net is not None and net_pins`). -/
def flushAcc (acc : NetsAcc) : List PNet :=
  match acc.current with
  | none => acc.saved
  | some nm =>
    if acc.curPins = [] then acc.saved
    else acc.saved ++ [{ name := nm, pins := acc.curPins, degree := acc.curPins.length }]

/-- One iteration of the line loop of `parse_nets`.  `known` is the test
`node_name in self.nodes`.  On a header line the pending net is saved
first; the declared degree is parsed but never used.  A pin line is kept
only when its node name is known — an unknown name is silently skipped. -/
def stepNets (known : String → Bool) (acc : NetsAcc) (l : NetLine) : NetsAcc :=
  match l with
  | .header _ nm =>
    let saved := flushAcc acc
    let netName := match nm with
      | some s => s
      | none => "net_" ++ toString saved.length
    { saved := saved, current := some netName, curPins := [] }
  | .pin node ptype =>
    if known node then { acc with curPins := acc.curPins ++ [(node, ptype)] } else acc

/-- `parse_nets` over the non-comment lines after the headers. -/
def parseNets (known : String → Bool) (lines : List NetLine) : List PNet :=
  flushAcc (lines.foldl (stepNets known) { saved := [], current := none, curPins := [] })

/-- A syntactically well-formed net block of the `.nets` file: a
`NetDegree : d name` header followed by its pin lines. -/
structure NetBlock where
  declaredDegree : Nat
  name : String
  pins : List (String × String)
deriving Repr, DecidableEq

/-- The line stream of a list of net blocks. -/
def flattenBlocks : List NetBlock → List NetLine
  | [] => []
  | b :: tl =>
    (NetLine.header b.declaredDegree (some b.name)
      :: b.pins.map (fun pr => NetLine.pin pr.1 pr.2)) ++ flattenBlocks tl

/-- The pins of a block whose node names exist in the design. -/
def keptPins (known : String → Bool) (b : NetBlock) : List (String × String) :=
  b.pins.filter (fun pr => known pr.1)

/-- Closed form proved equal to `parseNets` on a stream of blocks: each net
keeps exactly its known pins, its degree is their number, and a block with
no known pin is omitted.  The declared degree does not occur on this side. -/
def expectedNets (known : String → Bool) (bs : List NetBlock) : List PNet :=
  bs.filterMap (fun b =>
    let kept := keptPins known b
    if kept = [] then none
    else some { name := b.name, pins := kept, degree := kept.length })

/-! ## parse_pl (initial_placement_fixed.py:366-425) -/

/-- One iteration of the record loop of `parse_pl` for a record
(name, x, y, orientation): a known node gets its coordinates and
orientation updated; when the orientation is "F" or the node is already in
`fixed_nodes`, `is_fixed` is set and the name is added to `fixed_nodes`.
`movable_nodes` is never touched. -/
def plStep (st : Design) (r : String × ℚ × ℚ × String) : Design :=
  match lookupA st.nodes r.1 with
  | none => st
  | some nd =>
    let nd1 := { nd with x := r.2.1, y := r.2.2.1, orient := r.2.2.2 }
    if r.2.2.2 = "F" ∨ r.1 ∈ st.fixedKeys then
      { st with nodes := setA st.nodes r.1 { nd1 with is_fixed := true },
                fixedKeys := addKey st.fixedKeys r.1 }
    else
      { st with nodes := setA st.nodes r.1 nd1 }

/-- `parse_pl` over the records after the banner. -/
def parsePl (recs : List (String × ℚ × ℚ × String)) (st : Design) : Design :=
  recs.foldl plStep st

/-! ## legalize_placement (initial_placement_fixed.py:586-620) -/

/-- The per-axis clamp of `legalize_placement`:
`if pos < lo: pos = lo elif pos + size > hi: pos = hi - size`. -/
def clampAxis (pos size lo hi : ℚ) : ℚ :=
  if pos < lo then lo
  else if pos + size > hi then hi - size
  else pos

/-- Clamp one node against the core rectangle, x then y. -/
def clampNode (lx ly ux uy : ℚ) (nd : PNode) : PNode :=
  { nd with x := clampAxis nd.x nd.width lx ux,
            y := clampAxis nd.y nd.height ly uy }

/-- `legalize_placement`: every node of `movable_nodes` is clamped in
place (the loop runs over the dict items, so each stored movable node is
clamped exactly once). -/
def legalize (lx ly ux uy : ℚ) (st : Design) : Design :=
  { st with nodes :=
      st.nodes.map (fun p =>
        if p.1 ∈ st.movableKeys then (p.1, clampNode lx ly ux uy p.2) else p) }

/-! ## write_placement_result (initial_placement_fixed.py:622-653) -/

/-- The data content of one output line (name, x, y, orientation); the
source formats this as `name\tx\ty\t: orient`.  All entries of
`fixed_nodes` are written first with literal orientation "F", then all
entries of `movable_nodes` with literal "N".  (Keys are always present in
the store by construction; the default is never reached.) -/
def writeLines (st : Design) : List (String × ℚ × ℚ × String) :=
  st.fixedKeys.map (fun nm =>
    let nd := (lookupA st.nodes nm).getD (freshNode nm 0 0)
    (nm, nd.x, nd.y, "F"))
  ++ st.movableKeys.map (fun nm =>
    let nd := (lookupA st.nodes nm).getD (freshNode nm 0 0)
    (nm, nd.x, nd.y, "N"))

/-! ## build_quadratic_matrix (initial_placement_fixed.py:449-545)

The COO triplet lists `rows/cols/data` are modelled as one list of
(row, col, value) triples, emitted in source order.  `A.tocsr()`
coalesces duplicate coordinates by summation, so the matrix entry is the
sum of the values of all triples at that coordinate (`tripEntry`). -/

/-- `node_to_idx`: index of a name in the movable-node key list. -/
def midx (movableKeys : List String) (nm : String) : Option Nat :=
  movableKeys.findIdx? (fun k => k == nm)

/-- The inner pin loop for a fixed outer movable pin with index `a`:
for every other pin that is movable (index `b`) emit the diagonal triple
(a, a, w) and the off-diagonal triple (a, b, -w).  `others` is the pin
list with the outer pin position removed. -/
def innerTrips (mi : String → Option Nat) (w : ℚ) (a : Nat) :
    List String → List (Nat × Nat × ℚ)
  | [] => []
  | q :: rest =>
    (match mi q with
     | none => []
     | some b => [(a, a, w), (a, b, -w)]) ++ innerTrips mi w a rest

/-- The outer pin loop: `before` holds the pins already passed, so the
inner loop of the current pin runs over `before ++ after`, which is the
source loop over all positions with `i == j` skipped. -/
def outerTrips (mi : String → Option Nat) (w : ℚ) :
    List String → List String → List (Nat × Nat × ℚ)
  | _, [] => []
  | before, p :: after =>
    (match mi p with
     | none => []
     | some a => innerTrips mi w a (before ++ after))
    ++ outerTrips mi w (before ++ [p]) after

/-- All COO triples of one net. -/
def netTriplets (mi : String → Option Nat) (w : ℚ) (pins : List String) :
    List (Nat × Nat × ℚ) :=
  outerTrips mi w [] pins

/-- All COO triples of the design: nets of degree ≤ 1 are skipped, the
per-edge weight is `1 / (degree - 1)` with `degree = len(pins)`. -/
def designTriplets (movableKeys : List String) : List PNet → List (Nat × Nat × ℚ)
  | [] => []
  | net :: rest =>
    (if net.pins.length ≤ 1 then []
     else netTriplets (midx movableKeys) (1 / ((net.pins.length : ℚ) - 1))
       (net.pins.map Prod.fst)) ++ designTriplets movableKeys rest

/-- Matrix entry after `tocsr`: the sum of all triple values at (i, j)
(scipy sums duplicate COO coordinates on conversion). -/
def tripEntry : List (Nat × Nat × ℚ) → Nat → Nat → ℚ
  | [], _, _ => 0
  | t :: ts, i, j => (if t.1 = i ∧ t.2.1 = j then t.2.2 else 0) + tripEntry ts i j

/-- `fixed_x` (resp. `fixed_y`) of one net: sum of the chosen coordinate
over the pins whose node is in `fixed_nodes`. -/
def netFixedSum (fixedKeys : List String) (nodes : List (String × PNode))
    (coord : PNode → ℚ) (pins : List (String × String)) : ℚ :=
  ((pins.filter (fun pr => fixedKeys.contains pr.1)).map
    (fun pr => ((lookupA nodes pr.1).map coord).getD 0)).sum

/-- `fixed_count` of one net. -/
def netFixedCount (fixedKeys : List String) (pins : List (String × String)) : Nat :=
  (pins.filter (fun pr => fixedKeys.contains pr.1)).length

/-- Contribution of one net to the right-hand side at index `idx`: once per
movable pin occurrence with that index, `weight * fixed_sum` is added when
`fixed_count > 0` — note that no matching diagonal term is ever emitted
into the triplet list for movable-fixed edges. -/
def netB (mi : String → Option Nat) (w fx : ℚ) (fc : Nat)
    (pins : List (String × String)) (idx : Nat) : ℚ :=
  ((pins.filterMap (fun pr => mi pr.1)).map
    (fun a => if 0 < fc ∧ a = idx then w * fx else 0)).sum

/-- The full right-hand side vector (as a function of the index) for the
coordinate selected by `coord` (x or y). -/
def designB (movableKeys fixedKeys : List String)
    (nodes : List (String × PNode)) (nets : List PNet)
    (coord : PNode → ℚ) (idx : Nat) : ℚ :=
  (nets.map (fun net =>
    if net.pins.length ≤ 1 then 0
    else netB (midx movableKeys) (1 / ((net.pins.length : ℚ) - 1))
      (netFixedSum fixedKeys nodes coord net.pins)
      (netFixedCount fixedKeys net.pins) net.pins idx)).sum

/-! ## Concrete designs used by the closed theorems -/

/-- Boundary scenario of claim C1: movable cell `a` (1×1), fixed terminal
`t` at (10, 20), one 2-pin net of weight 1 joining them. -/
def exampleC1 : Design :=
  parsePl [("t", 10, 20, "N")]
    { parseNodes 2 1 [("a", 1, 1), ("t", 1, 1)] with
      nets := [{ name := "n1", pins := [("a", "I"), ("t", "O")], degree := 2 }] }

/-- Orphan-component scenario of claim C2: two movable cells joined by one
2-pin net, no fixed node anywhere. -/
def exampleC2 : Design :=
  { parseNodes 2 0 [("a", 1, 1), ("b", 1, 1)] with
    nets := [{ name := "n1", pins := [("a", "I"), ("b", "O")], degree := 2 }] }

/-- Cell-exceeds-core scenario of claims C3 and C4: core x-span [0, 5],
one movable cell of width 10 at x = 3. -/
def oversizeDesign : Design :=
  { nodes := [("c", { name := "c", width := 10, height := 1, x := 3, y := 1,
                      orient := "N", is_fixed := false, area := 10 })],
    movableKeys := ["c"], fixedKeys := [], nets := [] }

/-- A 2×2 movable cell at (50, 50), fitting a 0..100 core. -/
def fitNode : PNode :=
  { name := "w1", width := 2, height := 2, x := 50, y := 50,
    orient := "N", is_fixed := false, area := 4 }

/-- A design whose movable cell fits the core, for the clipper witnesses. -/
def fittingDesign : Design :=
  { nodes := [("w1", fitNode)], movableKeys := ["w1"], fixedKeys := [], nets := [] }

/-- Design of the writer counterexample: declaration order is `m` (movable)
then `f` (terminal); the `.pl` file gives `f` orientation "N". -/
def exampleC7 : Design :=
  parsePl [("f", 2, 3, "N"), ("m", 0, 0, "N")] (parseNodes 2 1 [("m", 1, 1), ("f", 1, 1)])

/-- Design of the C9 witness: the node `m` of the movable prefix carries
orientation "F" in the `.pl` file. -/
def exampleC9 : Design :=
  parsePl [("m", 5, 6, "F")] (parseNodes 2 1 [("m", 1, 1), ("t", 1, 1)])

/-- The parsed form of `exampleC1` (proved equal by `exampleC1_eval`). -/
def exampleC1lit : Design :=
  { nodes := [("a", { name := "a", width := 1, height := 1, x := 0, y := 0,
                      orient := "N", is_fixed := false, area := 1 }),
              ("t", { name := "t", width := 1, height := 1, x := 10, y := 20,
                      orient := "N", is_fixed := true, area := 1 })],
    movableKeys := ["a"], fixedKeys := ["t"],
    nets := [{ name := "n1", pins := [("a", "I"), ("t", "O")], degree := 2 }] }

/-- The parsed form of `exampleC2` (proved equal by `exampleC2_eval`). -/
def exampleC2lit : Design :=
  { nodes := [("a", { name := "a", width := 1, height := 1, x := 0, y := 0,
                      orient := "N", is_fixed := false, area := 1 }),
              ("b", { name := "b", width := 1, height := 1, x := 0, y := 0,
                      orient := "N", is_fixed := false, area := 1 })],
    movableKeys := ["a", "b"], fixedKeys := [],
    nets := [{ name := "n1", pins := [("a", "I"), ("b", "O")], degree := 2 }] }

/-! ## Theorems -/

theorem exampleC1_eval : exampleC1 = exampleC1lit := by rfl

theorem exampleC2_eval : exampleC2 = exampleC2lit := by rfl

/-- C1: the claim says the movable-fixed clique edge adds e to A[i,i] and
e·x_fixed to bx[i], so that `A = [[1]]`, `bx = [10]`, `by = [20]` and the
solve places `a` at (10, 20).  The code accumulates the right-hand side
but emits NO diagonal triple for a movable-fixed edge: on this design the
assembled matrix is `[[0]]` while `bx = [10]`, `by = [20]`, so the system
is singular and cannot place `a` at (10, 20). -/
theorem C1_example_assembly :
    tripEntry (designTriplets exampleC1.movableKeys exampleC1.nets) 0 0 = 0
    ∧ designB exampleC1.movableKeys exampleC1.fixedKeys exampleC1.nodes
        exampleC1.nets (fun nd => nd.x) 0 = 10
    ∧ designB exampleC1.movableKeys exampleC1.fixedKeys exampleC1.nodes
        exampleC1.nets (fun nd => nd.y) 0 = 20 := by
  have hm : List.filterMap (fun pr => midx ["a"] pr.1) [("a", "I"), ("t", "O")] = [0] := by rfl
  have hf : List.filter (fun pr => decide (pr.1 = "t")) [("a", "I"), ("t", "O")]
      = [("t", "O")] := by rfl
  refine ⟨rfl, ?_, ?_⟩ <;>
    (rw [exampleC1_eval];
     norm_num [designB, netB, netFixedSum, netFixedCount, lookupA, exampleC1lit, hm, hf];
     rfl)

/-- C2: on an orphan component (no fixed pin) the assembled system is
`A = [[1, -1], [-1, 1]]` with `b = 0`: the determinant is 0, so the
system the code hands to the external sparse solver is singular.  The
code has no CG fallback and no solver-failed path: it only aborts when
`spsolve` raises, which a singular matrix does not cause. -/
theorem C2_orphan_singular :
    tripEntry (designTriplets exampleC2.movableKeys exampleC2.nets) 0 0 = 1
    ∧ tripEntry (designTriplets exampleC2.movableKeys exampleC2.nets) 0 1 = -1
    ∧ tripEntry (designTriplets exampleC2.movableKeys exampleC2.nets) 1 0 = -1
    ∧ tripEntry (designTriplets exampleC2.movableKeys exampleC2.nets) 1 1 = 1
    ∧ tripEntry (designTriplets exampleC2.movableKeys exampleC2.nets) 0 0 *
        tripEntry (designTriplets exampleC2.movableKeys exampleC2.nets) 1 1 -
        tripEntry (designTriplets exampleC2.movableKeys exampleC2.nets) 0 1 *
        tripEntry (designTriplets exampleC2.movableKeys exampleC2.nets) 1 0 = 0
    ∧ designB exampleC2.movableKeys exampleC2.fixedKeys exampleC2.nodes
        exampleC2.nets (fun nd => nd.x) 0 = 0
    ∧ designB exampleC2.movableKeys exampleC2.fixedKeys exampleC2.nodes
        exampleC2.nets (fun nd => nd.x) 1 = 0 := by
  have hT : designTriplets exampleC2.movableKeys exampleC2.nets
      = [(0, 0, 1 / (((2:ℕ):ℚ) - 1)), (0, 1, -(1 / (((2:ℕ):ℚ) - 1))),
         (1, 1, 1 / (((2:ℕ):ℚ) - 1)), (1, 0, -(1 / (((2:ℕ):ℚ) - 1)))] := by rfl
  have hm : List.filterMap (fun pr => midx ["a", "b"] pr.1) [("a", "I"), ("b", "O")]
      = [0, 1] := by rfl
  have hb : ∀ idx : Nat,
      designB exampleC2.movableKeys exampleC2.fixedKeys exampleC2.nodes
        exampleC2.nets (fun nd => nd.x) idx = 0 := by
    intro idx
    rw [exampleC2_eval]
    norm_num [designB, netB, netFixedSum, netFixedCount, lookupA, exampleC2lit, hm]
  refine ⟨?_, ?_, ?_, ?_, ?_, hb 0, hb 1⟩ <;> norm_num [hT, tripEntry]

/-- C3 fails as stated: on a cell wider than the core, one application of
the clipper moves x from 3 to max_x − w = −5, and a second application
moves it to min_x = 0, so clipping twice differs from clipping once. -/
theorem C3_counterexample :
    legalize 0 0 5 5 (legalize 0 0 5 5 oversizeDesign) ≠ legalize 0 0 5 5 oversizeDesign
    ∧ (lookupA (legalize 0 0 5 5 oversizeDesign).nodes "c").map (fun nd => nd.x) = some (-5)
    ∧ (lookupA (legalize 0 0 5 5 (legalize 0 0 5 5 oversizeDesign)).nodes "c").map
        (fun nd => nd.x) = some 0 := by
  have h1 : (lookupA (legalize 0 0 5 5 oversizeDesign).nodes "c").map (fun nd => nd.x)
      = some (-5) := by
    norm_num [legalize, clampNode, clampAxis, oversizeDesign, lookupA]
  have h2 : (lookupA (legalize 0 0 5 5 (legalize 0 0 5 5 oversizeDesign)).nodes "c").map
      (fun nd => nd.x) = some 0 := by
    norm_num [legalize, clampNode, clampAxis, oversizeDesign, lookupA]
  refine ⟨fun h => ?_, h1, h2⟩
  rw [h, h1] at h2
  exact absurd (Option.some.inj h2) (by norm_num)

/-- C4 fails as stated: the claim pins a cell exceeding the core to
core.min_x = 0, but after one clip the cell of `oversizeDesign` sits at
max_x − w = −5, not at 0 (and the code has no warning mechanism at all). -/
theorem C4_counterexample :
    (lookupA (legalize 0 0 5 5 oversizeDesign).nodes "c").map (fun nd => nd.x) = some (-5)
    ∧ ¬ (lookupA (legalize 0 0 5 5 oversizeDesign).nodes "c").map (fun nd => nd.x) = some 0 := by
  have h1 : (lookupA (legalize 0 0 5 5 oversizeDesign).nodes "c").map (fun nd => nd.x)
      = some (-5) := by
    norm_num [legalize, clampNode, clampAxis, oversizeDesign, lookupA]
  refine ⟨h1, fun h => ?_⟩
  rw [h1] at h
  exact absurd (Option.some.inj h) (by norm_num)

/-! ### Clipper lemmas (claims C3 and C4) -/

theorem clampAxis_mem (pos size lo hi : ℚ) (h : lo ≤ hi - size) :
    lo ≤ clampAxis pos size lo hi ∧ clampAxis pos size lo hi ≤ hi - size := by
  unfold clampAxis
  split_ifs with h1 h2
  · exact ⟨le_refl lo, h⟩
  · constructor <;> linarith
  · constructor <;> linarith

theorem clampAxis_of_mem (c size lo hi : ℚ) (h1 : lo ≤ c) (h2 : c ≤ hi - size) :
    clampAxis c size lo hi = c := by
  unfold clampAxis
  rw [if_neg (by linarith), if_neg (by linarith)]

theorem clampAxis_oversize (pos size lo hi : ℚ) (h : hi - size < lo) :
    clampAxis pos size lo hi = hi - size ∨ clampAxis pos size lo hi = lo := by
  unfold clampAxis
  split_ifs with h1 h2
  · exact Or.inr rfl
  · exact Or.inl rfl
  · exact absurd h (by linarith)

theorem clampNode_idem (lx ly ux uy : ℚ) (nd : PNode)
    (hx : lx ≤ ux - (nd.width : ℚ)) (hy : ly ≤ uy - (nd.height : ℚ)) :
    clampNode lx ly ux uy (clampNode lx ly ux uy nd) = clampNode lx ly ux uy nd := by
  have hx2 := clampAxis_of_mem (clampAxis nd.x nd.width lx ux) nd.width lx ux
    (clampAxis_mem nd.x nd.width lx ux hx).1 (clampAxis_mem nd.x nd.width lx ux hx).2
  have hy2 := clampAxis_of_mem (clampAxis nd.y nd.height ly uy) nd.height ly uy
    (clampAxis_mem nd.y nd.height ly uy hy).1 (clampAxis_mem nd.y nd.height ly uy hy).2
  simp [clampNode, hx2, hy2]

theorem legalize_movableKeys (lx ly ux uy : ℚ) (st : Design) :
    (legalize lx ly ux uy st).movableKeys = st.movableKeys := rfl

/-- C3, amended: the Boundary Clipper is idempotent on every design whose
movable nodes all fit the core in both axes. -/
theorem C3_clip_idempotent_when_fits (lx ly ux uy : ℚ) (st : Design)
    (hfit : ∀ p ∈ st.nodes, p.1 ∈ st.movableKeys →
      lx ≤ ux - ((p : String × PNode).2.width : ℚ) ∧ ly ≤ uy - (p.2.height : ℚ)) :
    legalize lx ly ux uy (legalize lx ly ux uy st) = legalize lx ly ux uy st := by
  unfold legalize
  simp only [List.map_map]
  congr 1
  apply List.map_congr_left
  intro p hp
  by_cases hc : p.1 ∈ st.movableKeys
  · simp only [Function.comp_apply, if_pos hc]
    exact congrArg (fun nd => (p.1, nd))
      (clampNode_idem lx ly ux uy p.2 (hfit p hp hc).1 (hfit p hp hc).2)
  · simp only [Function.comp_apply, if_neg hc]

/-- Witness for C3_clip_idempotent_when_fits on a fitting design. -/
theorem C3_witness :
    legalize 0 0 100 100 (legalize 0 0 100 100 fittingDesign)
      = legalize 0 0 100 100 fittingDesign := by
  apply C3_clip_idempotent_when_fits
  intro p hp _
  have hp2 : p = ("w1", fitNode) := by
    simpa [fittingDesign] using hp
  subst hp2
  constructor <;> norm_num [fitNode]

/-- C4, amended: after clipping, a movable node that fits an axis lies in
[core.min, core.max − size] on that axis; a node exceeding the axis ends
at core.max − size or core.min (whichever branch of the clamp fired), and
no warning exists. -/
theorem C4_clip_bounds (lx ly ux uy : ℚ) (st : Design) (k : String) (v : PNode)
    (hmem : (k, v) ∈ (legalize lx ly ux uy st).nodes) (hmov : k ∈ st.movableKeys) :
    (lx ≤ ux - (v.width : ℚ) → lx ≤ v.x ∧ v.x ≤ ux - (v.width : ℚ))
    ∧ (ux - (v.width : ℚ) < lx → v.x = ux - (v.width : ℚ) ∨ v.x = lx)
    ∧ (ly ≤ uy - (v.height : ℚ) → ly ≤ v.y ∧ v.y ≤ uy - (v.height : ℚ))
    ∧ (uy - (v.height : ℚ) < ly → v.y = uy - (v.height : ℚ) ∨ v.y = ly) := by
  simp only [legalize, List.mem_map] at hmem
  obtain ⟨p, hp, heq⟩ := hmem
  by_cases hc : p.1 ∈ st.movableKeys
  · rw [if_pos hc, Prod.mk.injEq] at heq
    obtain ⟨hk, hv⟩ := heq
    subst hv
    simp only [clampNode]
    refine ⟨fun h => clampAxis_mem p.2.x p.2.width lx ux h,
            fun h => clampAxis_oversize p.2.x p.2.width lx ux h,
            fun h => clampAxis_mem p.2.y p.2.height ly uy h,
            fun h => clampAxis_oversize p.2.y p.2.height ly uy h⟩
  · rw [if_neg hc] at heq
    subst heq
    exact absurd hmov (by simpa using hc)

/-- Witness for C4_clip_bounds on a fitting design. -/
theorem C4_witness :
    (0 : ℚ) ≤ fitNode.x ∧ fitNode.x ≤ 100 - (fitNode.width : ℚ) := by
  have hmem : ("w1", fitNode) ∈ (legalize 0 0 100 100 fittingDesign).nodes := by
    have hcl : clampNode 0 0 100 100 fitNode = fitNode := by
      simp [clampNode, clampAxis, fitNode]
      norm_num
    simp [legalize, fittingDesign, hcl]
  exact (C4_clip_bounds 0 0 100 100 fittingDesign "w1" fitNode hmem
    (by simp [fittingDesign])).1 (by norm_num [fitNode])

/-- C5 fails as stated: a pin line referencing the unknown node "ghost"
does not make parsing fail; the net is stored with the dangling pin
silently dropped and degree 1. -/
theorem C5_counterexample :
    parseNets (fun s => s == "a")
      [.header 2 (some "n1"), .pin "a" "I", .pin "ghost" "O"]
      = [{ name := "n1", pins := [("a", "I")], degree := 1 }]
    ∧ ∀ net ∈ parseNets (fun s => s == "a")
        [.header 2 (some "n1"), .pin "a" "I", .pin "ghost" "O"],
        ("ghost", "O") ∉ net.pins := by
  decide

/-! ### Association-list and key-list helper lemmas -/

theorem hasKeyA_iff_mem {α : Type} (s : List (String × α)) (k : String) :
    hasKeyA s k = true ↔ k ∈ s.map Prod.fst := by
  induction s with
  | nil => simp [hasKeyA]
  | cons p t ih =>
    by_cases h : p.1 = k
    · simp [hasKeyA, List.find?, h]
    · have hb : (p.1 == k) = false := by simp [h]
      constructor
      · intro hk
        have ht : hasKeyA t k = true := by
          simpa [hasKeyA, List.find?, hb] using hk
        simp [ih.mp ht]
      · intro hk
        rcases (by simpa using hk : k = p.1 ∨ k ∈ t.map Prod.fst) with h1 | h1
        · exact absurd h1.symm h
        · have ht := ih.mpr h1
          simpa [hasKeyA, List.find?, hb] using ht

theorem setA_fresh_keys {α : Type} (s : List (String × α)) (k : String) (v : α)
    (h : hasKeyA s k = false) :
    (setA s k v).map Prod.fst = s.map Prod.fst ++ [k] := by
  simp [setA, h]

theorem setA_fresh_length {α : Type} (s : List (String × α)) (k : String) (v : α)
    (h : hasKeyA s k = false) : (setA s k v).length = s.length + 1 := by
  have := congrArg List.length (setA_fresh_keys s k v h)
  simpa using this

theorem addKey_not_mem (ks : List String) (k : String) (h : k ∉ ks) :
    addKey ks k = ks ++ [k] := by
  simp [addKey, h]

theorem mem_addKey (ks : List String) (k k2 : String) :
    k2 ∈ addKey ks k ↔ k2 ∈ ks ∨ k2 = k := by
  by_cases h : k ∈ ks
  · simp only [addKey, if_pos h]
    constructor
    · exact fun hk => Or.inl hk
    · rintro (hk | rfl)
      · exact hk
      · exact h
  · simp [addKey, if_neg h]

theorem count_addKey_le_one (ks : List String) (k k2 : String)
    (h : ks.count k2 ≤ 1) : (addKey ks k).count k2 ≤ 1 := by
  by_cases hm : k ∈ ks
  · simpa [addKey, hm] using h
  · by_cases hk : k = k2
    · subst hk
      have h0 : ks.count k = 0 := List.count_eq_zero.mpr hm
      simp [addKey, hm, List.count_append, h0]
    · have h0 : List.count k2 [k] = 0 := by simp [List.count_cons, hk]
      simp [addKey, hm, List.count_append, h0, h]

/-! ### parse_nodes (task4): movable prefix, fixed suffix -/

theorem parseNodes_go (M T : Nat) (decls : List (String × Int × Int)) :
    ∀ st : Design,
      (∀ d ∈ decls, d.1 ∉ st.nodes.map Prod.fst) →
      (∀ d ∈ decls, d.1 ∉ st.movableKeys) →
      (∀ d ∈ decls, d.1 ∉ st.fixedKeys) →
      (decls.map (fun d => d.1)).Nodup →
      (decls.foldl (nodesStep M T) st).movableKeys
          = st.movableKeys ++ (decls.take ((M - T) - st.nodes.length)).map (fun d => d.1)
      ∧ (decls.foldl (nodesStep M T) st).fixedKeys
          = st.fixedKeys ++ (decls.drop ((M - T) - st.nodes.length)).map (fun d => d.1)
      ∧ (decls.foldl (nodesStep M T) st).nodes.map Prod.fst
          = st.nodes.map Prod.fst ++ decls.map (fun d => d.1) := by
  induction decls with
  | nil => intro st _ _ _ _; simp
  | cons d tl ih =>
    intro st hn hm hf hnodup
    have hfresh : hasKeyA st.nodes d.1 = false := by
      have hmem : d.1 ∉ st.nodes.map Prod.fst := hn d (by simp)
      by_contra hc
      exact hmem ((hasKeyA_iff_mem _ _).mp (by simpa using hc))
    rw [List.map_cons, List.nodup_cons] at hnodup
    obtain ⟨hdtl, hnodtl⟩ := hnodup
    by_cases hlt : st.nodes.length < M - T
    · -- movable branch
      have hstep : nodesStep M T st d
          = { st with nodes := setA st.nodes d.1 (freshNode d.1 d.2.1 d.2.2),
                      movableKeys := st.movableKeys ++ [d.1] } := by
        rw [nodesStep, if_neg (by omega), addKey_not_mem _ _ (hm d (by simp))]
      have hkeys1 : (nodesStep M T st d).nodes.map Prod.fst
          = st.nodes.map Prod.fst ++ [d.1] := by
        rw [hstep]; exact setA_fresh_keys _ _ _ hfresh
      have hlen1 : (nodesStep M T st d).nodes.length = st.nodes.length + 1 := by
        rw [hstep]; exact setA_fresh_length _ _ _ hfresh
      have h2 := ih (nodesStep M T st d)
        (fun e he => by
          rw [hkeys1]
          simp only [List.mem_append, List.mem_singleton]
          rintro (h | h)
          · exact hn e (by simp [he]) h
          · exact hdtl (h ▸ List.mem_map_of_mem (fun x => x.1) he))
        (fun e he => by
          rw [hstep]
          simp only [List.mem_append, List.mem_singleton]
          rintro (h | h)
          · exact hm e (by simp [he]) h
          · exact hdtl (h ▸ List.mem_map_of_mem (fun x => x.1) he))
        (fun e he => by rw [hstep]; exact hf e (by simp [he]))
        hnodtl
      have harith : (M - T) - st.nodes.length = ((M - T) - (st.nodes.length + 1)) + 1 := by
        omega
      refine ⟨?_, ?_, ?_⟩
      · rw [List.foldl_cons, h2.1, hlen1, harith, List.take_succ_cons]
        rw [hstep]
        simp
      · rw [List.foldl_cons, h2.2.1, hlen1, harith, List.drop_succ_cons]
        rw [hstep]
      · rw [List.foldl_cons, h2.2.2, hkeys1]
        simp
    · -- fixed branch
      have hstep : nodesStep M T st d
          = { st with nodes := setA st.nodes d.1 { freshNode d.1 d.2.1 d.2.2 with is_fixed := true },
                      fixedKeys := st.fixedKeys ++ [d.1] } := by
        rw [nodesStep, if_pos (by omega), addKey_not_mem _ _ (hf d (by simp))]
      have hkeys1 : (nodesStep M T st d).nodes.map Prod.fst
          = st.nodes.map Prod.fst ++ [d.1] := by
        rw [hstep]; exact setA_fresh_keys _ _ _ hfresh
      have hlen1 : (nodesStep M T st d).nodes.length = st.nodes.length + 1 := by
        rw [hstep]; exact setA_fresh_length _ _ _ hfresh
      have h2 := ih (nodesStep M T st d)
        (fun e he => by
          rw [hkeys1]
          simp only [List.mem_append, List.mem_singleton]
          rintro (h | h)
          · exact hn e (by simp [he]) h
          · exact hdtl (h ▸ List.mem_map_of_mem (fun x => x.1) he))
        (fun e he => by rw [hstep]; exact hm e (by simp [he]))
        (fun e he => by
          rw [hstep]
          simp only [List.mem_append, List.mem_singleton]
          rintro (h | h)
          · exact hf e (by simp [he]) h
          · exact hdtl (h ▸ List.mem_map_of_mem (fun x => x.1) he))
        hnodtl
      have hz : (M - T) - st.nodes.length = 0 := by omega
      have hz1 : (M - T) - (st.nodes.length + 1) = 0 := by omega
      refine ⟨?_, ?_, ?_⟩
      · rw [List.foldl_cons, h2.1, hlen1, hz1, hz]
        rw [hstep]
        simp
      · rw [List.foldl_cons, h2.2.1, hlen1, hz1, hz]
        rw [hstep]
        simp
      · rw [List.foldl_cons, h2.2.2, hkeys1]
        simp

/-- The movable/fixed split of the task4 parser: first NumNodes −
NumTerminals declarations movable, remaining NumTerminals fixed. -/
theorem parseNodes_split (M T : Nat) (decls : List (String × Int × Int))
    (hnodup : (decls.map (fun d => d.1)).Nodup)
    (hlen : decls.length = M) (hTM : T ≤ M) :
    (parseNodes M T decls).movableKeys = (decls.take (M - T)).map (fun d => d.1)
    ∧ (parseNodes M T decls).fixedKeys = (decls.drop (M - T)).map (fun d => d.1)
    ∧ (parseNodes M T decls).fixedKeys.length = T := by
  have h := parseNodes_go M T decls emptyDesign
    (by simp [emptyDesign]) (by simp [emptyDesign]) (by simp [emptyDesign]) hnodup
  rw [parseNodes]
  have h0 : emptyDesign.nodes.length = 0 := by simp [emptyDesign]
  refine ⟨?_, ?_, ?_⟩
  · have := h.1
    rw [h0, Nat.sub_zero] at this
    simpa [emptyDesign] using this
  · have := h.2.1
    rw [h0, Nat.sub_zero] at this
    simpa [emptyDesign] using this
  · have h2 := h.2.1
    rw [h0, Nat.sub_zero] at h2
    rw [h2]
    simp [emptyDesign, hlen]
    omega

/-- C6, amended: for the task4 parser the first NumNodes − NumTerminals
declarations are classified movable and the remaining NumTerminals are
the fixed ones, the last declared (for distinct declaration names and a
declaration count matching the headers); the task2 parser differs (see
the counterexample). -/
theorem C6_task4_split (M T : Nat) (decls : List (String × Int × Int))
    (hnodup : (decls.map (fun d => d.1)).Nodup)
    (hlen : decls.length = M) (hTM : T ≤ M) :
    (parseNodes M T decls).movableKeys = (decls.take (M - T)).map (fun d => d.1)
    ∧ (parseNodes M T decls).fixedKeys = (decls.drop (M - T)).map (fun d => d.1)
    ∧ (parseNodes M T decls).fixedKeys.length = T :=
  parseNodes_split M T decls hnodup hlen hTM

/-- Witness for C6_task4_split at NumNodes = 2, NumTerminals = 1. -/
theorem C6_witness :
    (parseNodes 2 1 [("m", 1, 1), ("t", 1, 1)]).movableKeys = ["m"]
    ∧ (parseNodes 2 1 [("m", 1, 1), ("t", 1, 1)]).fixedKeys = ["t"]
    ∧ (parseNodes 2 1 [("m", 1, 1), ("t", 1, 1)]).fixedKeys.length = 1 := by
  have h := C6_task4_split 2 1 [("m", 1, 1), ("t", 1, 1)]
    (by decide) (by decide) (by decide)
  simpa using h

/-! ### parse_nets lemmas (claims C5 and C10) -/

theorem flushAcc_good (known : String → Bool) (acc : NetsAcc)
    (h1 : ∀ net ∈ acc.saved, ∀ pr ∈ net.pins, known pr.1 = true)
    (h2 : ∀ pr ∈ acc.curPins, known pr.1 = true) :
    ∀ net ∈ flushAcc acc, ∀ pr ∈ net.pins, known pr.1 = true := by
  obtain ⟨saved, current, curPins⟩ := acc
  intro net hnet
  cases current with
  | none => exact h1 net (by simpa [flushAcc] using hnet)
  | some nm =>
    by_cases hp : curPins = []
    · exact h1 net (by simpa [flushAcc, hp] using hnet)
    · have hnet2 : net ∈ saved
          ∨ net = { name := nm, pins := curPins, degree := curPins.length } := by
        simpa [flushAcc, hp] using hnet
      rcases hnet2 with h | h
      · exact h1 net h
      · rw [h]; exact h2

theorem parseNets_go_good (known : String → Bool) (lines : List NetLine) :
    ∀ acc : NetsAcc,
      (∀ net ∈ acc.saved, ∀ pr ∈ net.pins, known pr.1 = true) →
      (∀ pr ∈ acc.curPins, known pr.1 = true) →
      ∀ net ∈ flushAcc (lines.foldl (stepNets known) acc),
        ∀ pr ∈ net.pins, known pr.1 = true := by
  induction lines with
  | nil => intro acc h1 h2; exact flushAcc_good known acc h1 h2
  | cons l tl ih =>
    intro acc h1 h2
    rw [List.foldl_cons]
    cases l with
    | header dg nm =>
      apply ih
      · exact flushAcc_good known acc h1 h2
      · intro pr hpr
        simp [stepNets] at hpr
    | pin nd tp =>
      by_cases hk : known nd
      · apply ih
        · simpa [stepNets, hk] using h1
        · intro pr hpr
          simp only [stepNets, if_pos hk, List.mem_append, List.mem_singleton] at hpr
          rcases hpr with h | h
          · exact h2 pr h
          · rw [h]; exact hk
      · apply ih
        · simpa [stepNets, hk] using h1
        · simpa [stepNets, hk] using h2

/-- C5, amended: every pin of every net stored by parse_nets references a
node name that exists in the design; unknown names are silently dropped
and parsing always continues. -/
theorem C5_pins_known (known : String → Bool) (lines : List NetLine) :
    ∀ net ∈ parseNets known lines, ∀ pr ∈ net.pins, known pr.1 = true := by
  rw [parseNets]
  exact parseNets_go_good known lines _ (by simp) (by simp)

/-- Witness for C5_pins_known at a concrete net list. -/
theorem C5_witness : ("a" == "a") = true :=
  C5_pins_known (fun s => s == "a")
    [.header 2 (some "n1"), .pin "a" "I", .pin "ghost" "O"]
    { name := "n1", pins := [("a", "I")], degree := 1 } (by decide)
    ("a", "I") (by decide)

theorem pins_foldl (known : String → Bool) (ps : List (String × String)) :
    ∀ acc : NetsAcc,
      (ps.map (fun pr => NetLine.pin pr.1 pr.2)).foldl (stepNets known) acc
        = { acc with curPins := acc.curPins ++ ps.filter (fun pr => known pr.1) } := by
  induction ps with
  | nil => intro acc; simp
  | cons p tl ih =>
    intro acc
    rw [List.map_cons, List.foldl_cons, ih]
    by_cases hk : known p.1
    · simp [stepNets, hk, List.filter_cons]
    · simp [stepNets, hk, List.filter_cons]

theorem parseNets_blocks_go (known : String → Bool) (bs : List NetBlock) :
    ∀ acc : NetsAcc,
      flushAcc ((flattenBlocks bs).foldl (stepNets known) acc)
        = flushAcc acc ++ expectedNets known bs := by
  induction bs with
  | nil => intro acc; simp [flattenBlocks, expectedNets]
  | cons b tl ih =>
    intro acc
    rw [flattenBlocks, List.foldl_append, List.foldl_cons]
    have hh : stepNets known acc (NetLine.header b.declaredDegree (some b.name))
        = { saved := flushAcc acc, current := some b.name, curPins := [] } := rfl
    rw [hh, pins_foldl, ih]
    by_cases hk : b.pins.filter (fun pr => known pr.1) = []
    · simp [flushAcc, hk, expectedNets, keptPins]
    · simp [flushAcc, hk, expectedNets, keptPins, List.filterMap_cons]

/-- C10: parse_nets on a stream of net blocks stores, per block, exactly
the pins whose node names exist, with the degree equal to their number;
a block with no known pin is omitted and the declared NetDegree value
never appears in the result. -/
theorem C10_parse_nets_characterization (known : String → Bool) (bs : List NetBlock) :
    parseNets known (flattenBlocks bs) = expectedNets known bs := by
  rw [parseNets, parseNets_blocks_go]
  simp [flushAcc]

/-- C6 fails as stated on the task2 parser it cites: with NumNodes = 2 and
NumTerminals = 1 the FIRST declaration `a` is marked a terminal and the
last declaration `b` stays non-terminal, contradicting the claim that the
fixed nodes are the last ones declared. -/
theorem C6_counterexample :
    (lookupA (parseNodesT2 1 [("a", 1, 1), ("b", 1, 1)]) "a").map
      (fun v => v.is_terminal) = some true
    ∧ (lookupA (parseNodesT2 1 [("a", 1, 1), ("b", 1, 1)]) "b").map
      (fun v => v.is_terminal) = some false := by
  decide

/-- C7 fails as stated: the writer emits the fixed node `f` BEFORE the
movable node `m` although `.nodes` declared `m` first, and it writes `f`
with literal orientation "F" although the stored orientation parsed from
`.pl` is "N" (no original orientation is retained, no /FIXED suffix
exists in the output format of the source). -/
theorem C7_counterexample :
    writeLines exampleC7 = [("f", 2, 3, "F"), ("m", 0, 0, "N")]
    ∧ (writeLines exampleC7).map (fun l => l.1) ≠ ["m", "f"]
    ∧ (lookupA exampleC7.nodes "f").map (fun nd => nd.orient) = some "N"
    ∧ ∀ l ∈ writeLines exampleC7, l.1 = "f" → l.2.2.2 = "F" := by
  have hw : writeLines exampleC7 = [("f", 2, 3, "F"), ("m", 0, 0, "N")] := by rfl
  refine ⟨hw, ?_, rfl, ?_⟩
  · rw [hw]; decide
  · rw [hw]
    intro l hl
    simp only [List.mem_cons, List.not_mem_nil, or_false] at hl
    rcases hl with h | h
    · subst h; intro _; rfl
    · subst h; intro hc; exact absurd hc (by decide)

/-! ### Placement writer (claims C7 and C9) -/

theorem writeLines_names (st : Design) :
    (writeLines st).map (fun l => l.1) = st.fixedKeys ++ st.movableKeys := by
  simp [writeLines, Function.comp_def]

theorem writeLines_orients (st : Design) :
    (writeLines st).map (fun l => l.2.2.2)
      = List.replicate st.fixedKeys.length "F" ++ List.replicate st.movableKeys.length "N" := by
  simp [writeLines, Function.comp_def, List.map_const']

/-- C7, amended: the writer emits the fixed_nodes entries first (for a
freshly parsed design, the NumTerminals last-declared names) and then the
movable_nodes entries (the declaration prefix), the fixed lines always
with literal orientation "F" and the movable lines with "N". -/
theorem C7_writer_order (M T : Nat) (decls : List (String × Int × Int))
    (hnodup : (decls.map (fun d => d.1)).Nodup)
    (hlen : decls.length = M) (hTM : T ≤ M) :
    (writeLines (parseNodes M T decls)).map (fun l => l.1)
      = (decls.drop (M - T)).map (fun d => d.1) ++ (decls.take (M - T)).map (fun d => d.1)
    ∧ (writeLines (parseNodes M T decls)).map (fun l => l.2.2.2)
      = List.replicate T "F" ++ List.replicate (M - T) "N" := by
  obtain ⟨hmov, hfix, hcnt⟩ := parseNodes_split M T decls hnodup hlen hTM
  constructor
  · rw [writeLines_names, hmov, hfix]
  · rw [writeLines_orients, hmov, hfix]
    have h1 : ((decls.drop (M - T)).map (fun d => d.1)).length = T := by
      simp [hlen]
      omega
    have h2 : ((decls.take (M - T)).map (fun d => d.1)).length = M - T := by
      simp [hlen]
    rw [h1, h2]

/-- Witness for C7_writer_order on a 2-node, 1-terminal design. -/
theorem C7_witness :
    (writeLines (parseNodes 2 1 [("m", 1, 1), ("t", 1, 1)])).map (fun l => l.1)
      = ["t", "m"]
    ∧ (writeLines (parseNodes 2 1 [("m", 1, 1), ("t", 1, 1)])).map (fun l => l.2.2.2)
      = ["F", "N"] := by
  have h := C7_writer_order 2 1 [("m", 1, 1), ("t", 1, 1)] (by decide) (by decide) (by decide)
  simpa using h

theorem hasKeyA_lookupA {α : Type} (s : List (String × α)) (k : String) :
    hasKeyA s k = (lookupA s k).isSome := by
  unfold hasKeyA lookupA
  cases s.find? (fun p => p.1 == k) <;> rfl

theorem setA_existing_keys {α : Type} (s : List (String × α)) (k : String) (v : α)
    (h : hasKeyA s k = true) :
    (setA s k v).map Prod.fst = s.map Prod.fst := by
  rw [setA, if_pos h, List.map_map]
  apply List.map_congr_left
  intro p _
  by_cases hp : p.1 = k
  · simp [Function.comp, hp]
  · simp [Function.comp, hp]

theorem plStep_movableKeys (st : Design) (r : String × ℚ × ℚ × String) :
    (plStep st r).movableKeys = st.movableKeys := by
  unfold plStep
  cases lookupA st.nodes r.1 with
  | none => rfl
  | some nd => split_ifs <;> rfl

theorem plStep_keys (st : Design) (r : String × ℚ × ℚ × String) :
    (plStep st r).nodes.map Prod.fst = st.nodes.map Prod.fst := by
  unfold plStep
  cases hl : lookupA st.nodes r.1 with
  | none => rfl
  | some nd =>
    have hk : hasKeyA st.nodes r.1 = true := by
      rw [hasKeyA_lookupA, hl]
      rfl
    split_ifs <;> exact setA_existing_keys _ _ _ hk

theorem plStep_fixed_mono (st : Design) (r : String × ℚ × ℚ × String)
    (nm : String) (h : nm ∈ st.fixedKeys) : nm ∈ (plStep st r).fixedKeys := by
  unfold plStep
  cases lookupA st.nodes r.1 with
  | none => exact h
  | some nd =>
    split_ifs with hc
    · exact (mem_addKey _ _ _).mpr (Or.inl h)
    · exact h

theorem plStep_fixed_count_le (st : Design) (r : String × ℚ × ℚ × String)
    (nm : String) (h : st.fixedKeys.count nm ≤ 1) :
    (plStep st r).fixedKeys.count nm ≤ 1 := by
  unfold plStep
  cases lookupA st.nodes r.1 with
  | none => exact h
  | some nd =>
    split_ifs with hc
    · exact count_addKey_le_one _ _ _ h
    · exact h

theorem parsePl_movableKeys (recs : List (String × ℚ × ℚ × String)) :
    ∀ st : Design, (parsePl recs st).movableKeys = st.movableKeys := by
  induction recs with
  | nil => intro st; rfl
  | cons r tl ih =>
    intro st
    have h1 : parsePl (r :: tl) st = parsePl tl (plStep st r) := rfl
    rw [h1, ih, plStep_movableKeys]

theorem parsePl_keys (recs : List (String × ℚ × ℚ × String)) :
    ∀ st : Design, (parsePl recs st).nodes.map Prod.fst = st.nodes.map Prod.fst := by
  induction recs with
  | nil => intro st; rfl
  | cons r tl ih =>
    intro st
    have h1 : parsePl (r :: tl) st = parsePl tl (plStep st r) := rfl
    rw [h1, ih, plStep_keys]

theorem parsePl_fixed_mono (recs : List (String × ℚ × ℚ × String)) :
    ∀ (st : Design) (nm : String), nm ∈ st.fixedKeys → nm ∈ (parsePl recs st).fixedKeys := by
  induction recs with
  | nil => intro st nm h; exact h
  | cons r tl ih =>
    intro st nm h
    have h1 : parsePl (r :: tl) st = parsePl tl (plStep st r) := rfl
    rw [h1]
    exact ih (plStep st r) nm (plStep_fixed_mono st r nm h)

theorem parsePl_fixed_count_le (recs : List (String × ℚ × ℚ × String)) :
    ∀ (st : Design) (nm : String), st.fixedKeys.count nm ≤ 1 →
      (parsePl recs st).fixedKeys.count nm ≤ 1 := by
  induction recs with
  | nil => intro st nm h; exact h
  | cons r tl ih =>
    intro st nm h
    have h1 : parsePl (r :: tl) st = parsePl tl (plStep st r) := rfl
    rw [h1]
    exact ih (plStep st r) nm (plStep_fixed_count_le st r nm h)

theorem parsePl_fixed_in (recs : List (String × ℚ × ℚ × String)) :
    ∀ (st : Design) (nm : String) (x y : ℚ),
      (nm, x, y, "F") ∈ recs → hasKeyA st.nodes nm = true →
      nm ∈ (parsePl recs st).fixedKeys := by
  induction recs with
  | nil => intro st nm x y h _; simp at h
  | cons r tl ih =>
    intro st nm x y hrec hkey
    have h1 : parsePl (r :: tl) st = parsePl tl (plStep st r) := rfl
    rw [h1]
    rcases List.mem_cons.mp hrec with h | h
    · apply parsePl_fixed_mono
      rw [← h]
      rw [hasKeyA_lookupA] at hkey
      obtain ⟨nd, hnd⟩ := Option.isSome_iff_exists.mp hkey
      simp [plStep, hnd, mem_addKey]
    · apply ih (plStep st r) nm x y h
      have hmem : nm ∈ st.nodes.map Prod.fst := (hasKeyA_iff_mem _ _).mp hkey
      have hmem2 : nm ∈ (plStep st r).nodes.map Prod.fst := by
        rw [plStep_keys]
        exact hmem
      exact (hasKeyA_iff_mem _ _).mpr hmem2

theorem filter_fst_map {β : Type} (g : String → β) (nm : String) :
    ∀ ks : List String,
      ((ks.map (fun k => (k, g k))).filter (fun l => l.1 == nm)).length = ks.count nm := by
  intro ks
  induction ks with
  | nil => simp
  | cons k tl ih =>
    by_cases h : k = nm
    · subst h
      simp [List.filter_cons, List.count_cons, ih]
    · have h2 : ¬ nm = k := fun hh => h hh.symm
      simp [List.filter_cons, List.count_cons, h, h2, ih]

theorem writeLines_name_count (st : Design) (nm : String) :
    ((writeLines st).filter (fun l => l.1 == nm)).length
      = st.fixedKeys.count nm + st.movableKeys.count nm := by
  rw [writeLines, List.filter_append, List.length_append]
  congr 1
  · exact filter_fst_map
      (fun k => (((lookupA st.nodes k).getD (freshNode k 0 0)).x,
        ((lookupA st.nodes k).getD (freshNode k 0 0)).y, "F")) nm st.fixedKeys
  · exact filter_fst_map
      (fun k => (((lookupA st.nodes k).getD (freshNode k 0 0)).x,
        ((lookupA st.nodes k).getD (freshNode k 0 0)).y, "N")) nm st.movableKeys

theorem writeLines_mem_F (st : Design) (nm : String) (h : nm ∈ st.fixedKeys) :
    (nm, ((lookupA st.nodes nm).getD (freshNode nm 0 0)).x,
         ((lookupA st.nodes nm).getD (freshNode nm 0 0)).y, "F") ∈ writeLines st := by
  rw [writeLines]
  apply List.mem_append_left
  exact List.mem_map_of_mem _ h

theorem writeLines_mem_N (st : Design) (nm : String) (h : nm ∈ st.movableKeys) :
    (nm, ((lookupA st.nodes nm).getD (freshNode nm 0 0)).x,
         ((lookupA st.nodes nm).getD (freshNode nm 0 0)).y, "N") ∈ writeLines st := by
  rw [writeLines]
  apply List.mem_append_right
  exact List.mem_map_of_mem _ h

/-- C9: a node of the movable prefix whose `.pl` record carries
orientation "F" is added to fixed_nodes while remaining in movable_nodes,
and the writer then emits two lines for it, one with orientation "F" and
one with orientation "N". -/
theorem C9_overlap (st : Design) (recs : List (String × ℚ × ℚ × String))
    (nm : String) (x y : ℚ)
    (hrec : (nm, x, y, "F") ∈ recs)
    (hkey : hasKeyA st.nodes nm = true)
    (hmovc : st.movableKeys.count nm = 1)
    (hfix0 : nm ∉ st.fixedKeys) :
    nm ∈ (parsePl recs st).fixedKeys
    ∧ nm ∈ (parsePl recs st).movableKeys
    ∧ ((writeLines (parsePl recs st)).filter (fun l => l.1 == nm)).length = 2
    ∧ (∃ px py, (nm, px, py, "F") ∈ writeLines (parsePl recs st))
    ∧ (∃ px py, (nm, px, py, "N") ∈ writeLines (parsePl recs st)) := by
  have hfixin : nm ∈ (parsePl recs st).fixedKeys :=
    parsePl_fixed_in recs st nm x y hrec hkey
  have hmkeys : (parsePl recs st).movableKeys = st.movableKeys :=
    parsePl_movableKeys recs st
  have hmovin : nm ∈ (parsePl recs st).movableKeys := by
    rw [hmkeys]
    have hpos : 0 < st.movableKeys.count nm := by omega
    exact List.count_pos_iff.mp hpos
  have hfc : (parsePl recs st).fixedKeys.count nm = 1 := by
    have hle : (parsePl recs st).fixedKeys.count nm ≤ 1 :=
      parsePl_fixed_count_le recs st nm (by
        have h0 : st.fixedKeys.count nm = 0 := List.count_eq_zero.mpr hfix0
        omega)
    have hge : 0 < (parsePl recs st).fixedKeys.count nm :=
      List.count_pos_iff.mpr hfixin
    omega
  refine ⟨hfixin, hmovin, ?_, ?_, ?_⟩
  · rw [writeLines_name_count, hfc, hmkeys, hmovc]
  · exact ⟨_, _, writeLines_mem_F _ nm hfixin⟩
  · exact ⟨_, _, writeLines_mem_N _ nm hmovin⟩

/-- Witness for C9_overlap: node m of the movable prefix carries "F" in
`.pl`; it ends up in both maps and is written twice. -/
theorem C9_witness :
    "m" ∈ exampleC9.fixedKeys
    ∧ "m" ∈ exampleC9.movableKeys
    ∧ ((writeLines exampleC9).filter (fun l => l.1 == "m")).length = 2
    ∧ (∃ px py, ("m", px, py, "F") ∈ writeLines exampleC9)
    ∧ (∃ px py, ("m", px, py, "N") ∈ writeLines exampleC9) :=
  C9_overlap (parseNodes 2 1 [("m", 1, 1), ("t", 1, 1)]) [("m", 5, 6, "F")] "m" 5 6
    (by simp) (by rfl) (by rfl) (by decide)

/-! ### Matrix symmetry (claim C8) -/

theorem tripEntry_append (l1 l2 : List (Nat × Nat × ℚ)) (i j : Nat) :
    tripEntry (l1 ++ l2) i j = tripEntry l1 i j + tripEntry l2 i j := by
  induction l1 with
  | nil => simp [tripEntry]
  | cons t ts ih =>
    show (if t.1 = i ∧ t.2.1 = j then t.2.2 else 0) + tripEntry (ts ++ l2) i j
        = ((if t.1 = i ∧ t.2.1 = j then t.2.2 else 0) + tripEntry ts i j) + tripEntry l2 i j
    rw [ih]
    ring

theorem innerTrips_entry (mi : String → Option Nat) (w : ℚ) (a : Nat)
    (others : List String) (i j : Nat) :
    tripEntry (innerTrips mi w a others) i j
      = (if a = i ∧ a = j then ((others.filterMap mi).length : ℚ) * w else 0)
        - (if a = i then ((others.filterMap mi).count j : ℚ) * w else 0) := by
  induction others with
  | nil => simp [innerTrips, tripEntry]
  | cons q tl ih =>
    cases hq : mi q with
    | none =>
      rw [show innerTrips mi w a (q :: tl) = [] ++ innerTrips mi w a tl by
        simp [innerTrips, hq]]
      rw [List.nil_append, ih]
      simp [List.filterMap_cons, hq]
    | some b =>
      rw [show innerTrips mi w a (q :: tl) = [(a, a, w), (a, b, -w)] ++ innerTrips mi w a tl by
        simp [innerTrips, hq]]
      rw [tripEntry_append, ih]
      simp only [tripEntry, List.filterMap_cons, hq, List.length_cons, List.count_cons]
      push_cast
      by_cases hai : a = i <;> by_cases haj : a = j <;> by_cases hbj : b = j <;>
        subst_vars <;> simp_all <;> ring

theorem outerTrips_entry (mi : String → Option Nat) (w : ℚ) (i j : Nat) :
    ∀ (rest before : List String),
      tripEntry (outerTrips mi w before rest) i j
        = (if i = j then
            (((before.filterMap mi).length + (rest.filterMap mi).length : ℕ) : ℚ)
              * ((rest.filterMap mi).count i : ℚ) * w
          else 0)
          - ((rest.filterMap mi).count i : ℚ)
            * (((before.filterMap mi).count j + (rest.filterMap mi).count j : ℕ) : ℚ) * w := by
  intro rest
  induction rest with
  | nil =>
    intro before
    simp [outerTrips, tripEntry]
  | cons p tl ih =>
    intro before
    cases hp : mi p with
    | none =>
      rw [show outerTrips mi w before (p :: tl) = [] ++ outerTrips mi w (before ++ [p]) tl by
        simp [outerTrips, hp]]
      rw [List.nil_append, ih (before ++ [p])]
      simp [List.filterMap_append, List.filterMap_cons, hp]
    | some a =>
      rw [show outerTrips mi w before (p :: tl)
          = innerTrips mi w a (before ++ tl) ++ outerTrips mi w (before ++ [p]) tl by
        simp [outerTrips, hp]]
      rw [tripEntry_append, innerTrips_entry, ih (before ++ [p])]
      simp only [List.filterMap_append, List.filterMap_cons, hp, List.length_append,
        List.count_append, List.count_cons, List.length_cons, List.count_nil,
        List.length_nil, List.filterMap_nil, List.append_nil, List.nil_append]
      push_cast
      by_cases hai : a = i <;> by_cases haj : a = j <;> by_cases hij : i = j <;>
        subst_vars <;> simp_all <;>
        (first | ring1 | (left; left; ring1))

theorem netTriplets_entry_symm (mi : String → Option Nat) (w : ℚ)
    (pins : List String) (i j : Nat) :
    tripEntry (netTriplets mi w pins) i j = tripEntry (netTriplets mi w pins) j i := by
  rw [netTriplets, outerTrips_entry, outerTrips_entry]
  simp only [List.filterMap_nil, List.length_nil, List.count_nil, Nat.zero_add,
    Nat.cast_zero, Nat.add_zero, zero_add]
  by_cases hij : i = j
  · rw [hij]
  · have hji : ¬ j = i := fun h => hij h.symm
    rw [if_neg hij, if_neg hji]
    ring

/-- C8: the COO triplet list assembled by build_quadratic_matrix has a
symmetric entry function: for every design state and every pair of
indices, the coalesced (summed) matrix entry at (i, j) equals the entry
at (j, i). -/
theorem C8_matrix_symmetric (movableKeys : List String) (nets : List PNet) (i j : Nat) :
    tripEntry (designTriplets movableKeys nets) i j
      = tripEntry (designTriplets movableKeys nets) j i := by
  induction nets with
  | nil => simp [designTriplets, tripEntry]
  | cons net rest ih =>
    rw [designTriplets, tripEntry_append, tripEntry_append, ih]
    congr 1
    by_cases hd : net.pins.length ≤ 1
    · simp [hd, tripEntry]
    · simp only [if_neg hd]
      exact netTriplets_entry_symm _ _ _ i j

end EDA
